import Mathlib

/-!
Shallow embedding of the `rolling-stats` Rust library.

Source files modelled:
- `src/raw.rs`: the `ConverterFromRaw` capability with the `LittleEndian` and
  `BigEndian` implementations for `i32`.
- `src/reconstructor.rs`: the `Reconstructor` buffering strategy.
- `src/partial_data_buffer.rs`: the `PartialDataBuffer` buffering strategy.
- `src/lib.rs`: the `RollingStats` facade (one structure per feature flag) and
  the `Statistics` implementation (`mean`, `std_dev`, `rand`).

Conventions: bytes are `Nat` (the `u8` range is enforced with `% 256` where the
decoders read bytes); `i32` is `Int` with explicit two's-complement reduction;
`f32` arithmetic is idealised as exact rational arithmetic, and the final
square root of `std_dev` as the real square root; a Rust panic (a failing
`.unwrap()`) is modelled by `none`, a propagated `std::io::Error` by
`Except.error`.
-/

namespace RollingStatsModel

/-- Error type of `ConverterFromRaw` (src/raw.rs): its only variant is
`NotEnoughData`. -/
inductive RawConversionError where
  | NotEnoughData
deriving DecidableEq, Repr

/-- Marker for the `std::io::Error` built with `ErrorKind::InvalidData` in
`Reconstructor::write` (src/reconstructor.rs line 86). -/
inductive IoError where
  | invalidData
deriving DecidableEq, Repr

/-- A decoding scheme: the `ConverterFromRaw<T>` trait of src/raw.rs together
with the byte width of the target type. `width` models
`std::mem::size_of::<T>()`, the group size used by `Reconstructor::write`,
`PartialDataBuffer::type_size` and the facade's `chunks_exact` call. -/
structure Converter (T : Type) where
  width : Nat
  from_raw : List Nat → Except RawConversionError T

/-- Two's-complement reinterpretation of the low 32 bits of a natural number
as a signed 32-bit value, as done by `i32::from_le_bytes`/`from_be_bytes`. -/
def toI32 (n : Nat) : Int :=
  if n % 2 ^ 32 < 2 ^ 31 then ((n % 2 ^ 32 : Nat) : Int)
  else ((n % 2 ^ 32 : Nat) : Int) - 2 ^ 32

/-- Unsigned value of a byte list read least-significant-byte first. Each
entry is reduced `% 256` because the Rust slice holds `u8` values. -/
def leNat : List Nat → Nat
  | [] => 0
  | b :: bs => b % 256 + 256 * leNat bs

/-- `impl ConverterFromRaw<i32> for LittleEndian` (src/raw.rs lines 312-320):
fails with `NotEnoughData` when fewer than 4 bytes are given, otherwise
decodes the first 4 bytes with `i32::from_le_bytes`. -/
def LittleEndian : Converter Int where
  width := 4
  from_raw raw :=
    if raw.length < 4 then Except.error RawConversionError.NotEnoughData
    else Except.ok (toI32 (leNat (raw.take 4)))

/-- `impl ConverterFromRaw<i32> for BigEndian` (src/raw.rs lines 322-330):
fails with `NotEnoughData` when fewer than 4 bytes are given, otherwise
decodes the first 4 bytes with `i32::from_be_bytes`. -/
def BigEndian : Converter Int where
  width := 4
  from_raw raw :=
    if raw.length < 4 then Except.error RawConversionError.NotEnoughData
    else Except.ok (toI32 (leNat (raw.take 4).reverse))

/-- The full `w`-byte groups of a list, in order, as produced by Rust's
`chunks_exact(w)` iterator. -/
def chunksExact (w : Nat) (l : List α) : List (List α) :=
  if _h : 0 < w ∧ w ≤ l.length then
    l.take w :: chunksExact w (l.drop w)
  else []
termination_by l.length
decreasing_by
  simp only [List.length_drop]
  omega

/-- The trailing bytes left over after all full `w`-byte groups, as produced
by the `remainder()` of Rust's `chunks_exact(w)` iterator. -/
def chunksRemainder (w : Nat) (l : List α) : List α :=
  if _h : 0 < w ∧ w ≤ l.length then chunksRemainder w (l.drop w) else l
termination_by l.length
decreasing_by
  simp only [List.length_drop]
  omega

/-- The `Reconstructor` structure (src/reconstructor.rs lines 13-19):
`intermediate_buffer` holds leftover raw bytes, `buffer` the parsed values. -/
structure Reconstructor (T : Type) where
  intermediate_buffer : List Nat
  buffer : List T
deriving DecidableEq, Repr

/-- `Reconstructor::default` (src/reconstructor.rs lines 22-30): both buffers
empty. -/
def Reconstructor.new : Reconstructor T := ⟨[], []⟩

/-- The `for value in chunks.map(|c| E::from_raw(c))` loop of
`Reconstructor::write` (src/reconstructor.rs lines 84-89): decodes groups in
order, stopping at the first failure; returns the values pushed and the error
if one occurred. -/
def decodeLoop (E : Converter T) : List (List Nat) → List T × Option RawConversionError
  | [] => ([], none)
  | g :: gs =>
    match E.from_raw g with
    | Except.error e => ([], some e)
    | Except.ok v =>
      let rest := decodeLoop E gs
      (v :: rest.1, rest.2)

/-- The `offset` computed in `Reconstructor::write` and
`PartialDataBuffer::consume`: `0` when the leftover buffer is empty, otherwise
the number of bytes still missing to complete one value. -/
def writeOffset (width : Nat) (leftover : List Nat) : Nat :=
  if leftover = [] then 0 else width - leftover.length

/-- `Reconstructor::write` (src/reconstructor.rs lines 57-92). Returns `none`
when the `.unwrap()` on the leftover-completion decode panics; otherwise the
updated state together with `Ok(buf.len())` or the propagated `InvalidData`
error. If the chunk plus the leftover still do not reach one value width the
chunk is absorbed whole. Otherwise the leftover (if any) is completed from the
front of the chunk and decoded; the remainder of the chunk is split into full
groups, the trailing partial group is stored into `intermediate_buffer`
before the decode loop runs, and the loop pushes decoded values until the
first failure, which is returned as an error. -/
def Reconstructor.write (E : Converter T) (r : Reconstructor T) (buf : List Nat) :
    Option (Reconstructor T × Except IoError Nat) :=
  let type_size := E.width
  if buf.length + r.intermediate_buffer.length < type_size then
    some (⟨r.intermediate_buffer ++ buf, r.buffer⟩, Except.ok buf.length)
  else
    let offset := writeOffset type_size r.intermediate_buffer
    let step1 : Option (List T × List Nat) :=
      if 0 < offset then
        match E.from_raw (r.intermediate_buffer ++ buf.take offset) with
        | Except.error _ => none
        | Except.ok v => some ([v], [])
      else some ([], r.intermediate_buffer)
    match step1 with
    | none => none
    | some (vs1, inter1) =>
      let rest := buf.drop offset
      let inter2 := inter1 ++ chunksRemainder type_size rest
      let looped := decodeLoop E (chunksExact type_size rest)
      match looped.2 with
      | some _ => some (⟨inter2, r.buffer ++ vs1 ++ looped.1⟩, Except.error IoError.invalidData)
      | none => some (⟨inter2, r.buffer ++ vs1 ++ looped.1⟩, Except.ok buf.length)

/-- `Reconstructor::flush` (src/reconstructor.rs lines 97-100): clears the
parsed-data buffer, never fails. -/
def Reconstructor.flush (r : Reconstructor T) : Reconstructor T :=
  ⟨r.intermediate_buffer, []⟩

/-- The outcome of step 1 of `Reconstructor::write` in the non-absorbing
case: the values pushed by the leftover-completion decode (`none` when that
decode's `.unwrap()` panics, `some []` when the leftover buffer was empty and
no completion decode happens). -/
def step1Vals (E : Converter T) (r : Reconstructor T) (buf : List Nat) : Option (List T) :=
  if r.intermediate_buffer = [] then some []
  else
    match E.from_raw (r.intermediate_buffer
        ++ buf.take (writeOffset E.width r.intermediate_buffer)) with
    | Except.error _ => none
    | Except.ok v => some [v]

/-- The `PartialDataBuffer` structure (src/partial_data_buffer.rs lines
158-162): only the leftover byte buffer is state. -/
structure PartialDataBuffer where
  buffer : List Nat
deriving DecidableEq, Repr

/-- `PartialDataBuffer::default`: an empty buffer. -/
def PartialDataBuffer.new : PartialDataBuffer := ⟨[]⟩

/-- `PartialDataBuffer::consume` (src/partial_data_buffer.rs lines 187-214).
Returns `none` when the `.unwrap()` on the completed-leftover decode panics;
otherwise the updated buffer, the value reconstructed from the completed
leftover (if any), and the sub-slice of `raw` stripped of the leading
leftover-completion bytes and the trailing partial group (which is stored). -/
def PartialDataBuffer.consume (E : Converter T) (p : PartialDataBuffer) (raw : List Nat) :
    Option (PartialDataBuffer × Option T × List Nat) :=
  let type_size := E.width
  if p.buffer.length + raw.length < type_size then
    some (⟨p.buffer ++ raw⟩, none, [])
  else
    let offset := writeOffset type_size p.buffer
    let step1 : Option (Option T × List Nat) :=
      if 0 < offset then
        match E.from_raw (p.buffer ++ raw.take offset) with
        | Except.error _ => none
        | Except.ok v => some (some v, [])
      else some (none, p.buffer)
    match step1 with
    | none => none
    | some (reconstructed, buf1) =>
      let remainder := (raw.length - offset) % type_size
      let buf2 := if 0 < remainder then buf1 ++ raw.drop (raw.length - remainder) else buf1
      some (⟨buf2⟩, reconstructed, (raw.drop offset).take (raw.length - remainder - offset))

/-- The `while self.buffer.len() > WINDOW_SIZE { self.buffer.pop_front(); }`
eviction loop of both `RollingStats::write` implementations (src/lib.rs lines
82-84 and 111-113). The deque is a list with the head at the front. -/
def popExcess (windowSize : Nat) (l : List T) : List T :=
  if windowSize < l.length then popExcess windowSize l.tail else l
termination_by l.length
decreasing_by
  simp only [List.length_tail]
  omega

/-- The last `n` elements of a list, in order. Used to state which values a
bounded window retains. -/
def lastN (n : Nat) (l : List α) : List α :=
  l.drop (l.length - n)

/-- `RollingStats` under the `reconstructor` feature (src/lib.rs lines 54-61):
a `Reconstructor` plus the `VecDeque` window (head at the front). The window
size is passed to the operations rather than stored. -/
structure RollingStatsRec (T : Type) where
  reconstructor : Reconstructor T
  buffer : List T
deriving DecidableEq, Repr

/-- `RollingStats::new` (src/lib.rs lines 125-134), `reconstructor` feature. -/
def RollingStatsRec.new : RollingStatsRec T := ⟨Reconstructor.new, []⟩

/-- `RollingStats` without the `reconstructor` feature (the default build,
src/lib.rs lines 54-61): a `PartialDataBuffer` plus the `VecDeque` window. -/
structure RollingStatsPdb (T : Type) where
  intermediate_buffer : PartialDataBuffer
  buffer : List T
deriving DecidableEq, Repr

/-- `RollingStats::new` (src/lib.rs lines 125-134), default feature set. -/
def RollingStatsPdb.new : RollingStatsPdb T := ⟨PartialDataBuffer.new, []⟩

/-- `<RollingStats as Write>::write` under the `reconstructor` feature
(src/lib.rs lines 77-87): delegate to `Reconstructor::write`, move all parsed
values into the window, flush the reconstructor, evict from the front while
the window exceeds `WINDOW_SIZE`, and return the reconstructor's result. The
third component of the output records the values appended to the window
during this call; the Rust method returns only the byte-count result, and
this ghost component is exposed so that specifications can speak about the
decoded value sequence. -/
def RollingStatsRec.write (E : Converter T) (windowSize : Nat) (s : RollingStatsRec T)
    (buf : List Nat) : Option (RollingStatsRec T × Except IoError Nat × List T) :=
  match s.reconstructor.write E buf with
  | none => none
  | some (r1, result) =>
    let appended := r1.buffer
    let window := popExcess windowSize (s.buffer ++ appended)
    some (⟨r1.flush, window⟩, result, appended)

/-- `<RollingStats as Write>::write` in the default build (src/lib.rs lines
100-116): delegate to `PartialDataBuffer::consume`, push the reconstructed
value (if any), decode every full group of the returned slice with
`E::from_raw(raw).unwrap()` (a failure panics, modelled by `none`), extend the
window, evict from the front while it exceeds `WINDOW_SIZE`, and return
`Ok(buf.len())`. The third output component is the same ghost record of the
values appended during this call as in `RollingStatsRec.write`. -/
def RollingStatsPdb.write (E : Converter T) (windowSize : Nat) (s : RollingStatsPdb T)
    (buf : List Nat) : Option (RollingStatsPdb T × Nat × List T) :=
  match s.intermediate_buffer.consume E buf with
  | none => none
  | some (p1, reconstructed, remaining_buf) =>
    match (chunksExact E.width remaining_buf).mapM (fun raw => (E.from_raw raw).toOption) with
    | none => none
    | some parsed =>
      let appended := reconstructed.toList ++ parsed
      let window := popExcess windowSize (s.buffer ++ appended)
      some (⟨p1, window⟩, buf.length, appended)

/-- `RollingStats::len` (src/lib.rs lines 66-68): the window length. -/
def RollingStatsPdb.len (s : RollingStatsPdb T) : Nat := s.buffer.length

/-- `RollingStats::len` (src/lib.rs lines 66-68), `reconstructor` feature. -/
def RollingStatsRec.len (s : RollingStatsRec T) : Nat := s.buffer.length

/-- Two's-complement wraparound of an integer into the `i32` range, the
release-mode semantics of Rust `i32` addition. -/
def wrap32 (z : Int) : Int :=
  (z + 2 ^ 31) % 2 ^ 32 - 2 ^ 31

/-- Native `i32` addition: add, then wrap into the `i32` range. -/
def i32add (a b : Int) : Int := wrap32 (a + b)

/-- The fold `self.buffer.iter().fold(T::default(), |acc, item| acc + *item)`
of `Statistics::mean` (src/lib.rs lines 148-150) at `T = i32`: `default` is
`0` and `+` is native `i32` addition. -/
def windowSum (l : List Int) : Int :=
  l.foldl (fun acc item => i32add acc item) 0

/-- `Statistics::mean` (src/lib.rs lines 147-153): the window sum, converted
to floating point (idealised as an exact rational), divided by
`WINDOW_SIZE.min(len).max(1)`. -/
def mean (windowSize : Nat) (l : List Int) : ℚ :=
  (windowSum l : ℚ) / (((windowSize.min l.length).max 1 : Nat) : ℚ)

/-- The fold `self.buffer.iter().fold(0.0, |acc, item| acc + (item.convert() -
mean).powi(2))` of `Statistics::std_dev` (src/lib.rs lines 158-161),
idealised over the rationals. -/
def sqDevSum (windowSize : Nat) (l : List Int) : ℚ :=
  l.foldl (fun (acc : ℚ) (item : Int) => acc + ((item : ℚ) - mean windowSize l) ^ 2) 0

/-- The divisor `WINDOW_SIZE.min(self.buffer.len()).max(2) - 1` of
`Statistics::std_dev` (src/lib.rs line 163). -/
def stdDevDivisor (windowSize : Nat) (l : List Int) : Nat :=
  (windowSize.min l.length).max 2 - 1

/-- `Statistics::std_dev` (src/lib.rs lines 155-166): the square root of the
squared-deviation sum divided by the Bessel divisor. The `f32` square root is
idealised as the real square root. -/
noncomputable def std_dev (windowSize : Nat) (l : List Int) : ℝ :=
  Real.sqrt (((sqDevSum windowSize l / (stdDevDivisor windowSize l : ℚ)) : ℚ) : ℝ)

/-- Modelled from the spec (section 4.4 and the error taxonomy): the external
`rand_distr::Normal::new` constructor, which is not part of this repository.
It accepts a mean and a standard deviation and fails exactly when the
standard deviation parameter is invalid, i.e. negative (the NaN/non-finite
cases cannot arise in the real-number idealisation). -/
noncomputable def normalNew (m sd : ℝ) : Except Unit (ℝ × ℝ) :=
  if 0 ≤ sd then Except.ok (m, sd) else Except.error ()

/-- `Statistics::rand` (src/lib.rs lines 168-171): build the normal
distribution from the current `mean()` and `std_dev()`, `.unwrap()` it (a
construction failure panics, modelled by `none`), then draw one sample. The
sampler (`rand_distr` plus `rand::thread_rng`, external to the repository) is
abstracted as a function of the distribution parameters. -/
noncomputable def rand (sample : ℝ × ℝ → ℝ) (windowSize : Nat) (l : List Int) : Option ℝ :=
  match normalNew (((mean windowSize l : ℚ) : ℝ)) (std_dev windowSize l) with
  | Except.error _ => none
  | Except.ok dist => some (sample dist)

/-- Sequential feeding of byte chunks to the default-build facade, one `write`
call per chunk, recording the returned byte counts and the appended values.
`none` if any call panics. -/
def writeAllPdb (E : Converter T) (windowSize : Nat) :
    List (List Nat) → RollingStatsPdb T → Option (RollingStatsPdb T × List Nat × List T)
  | [], s => some (s, [], [])
  | c :: cs, s =>
    match s.write E windowSize c with
    | none => none
    | some (s1, n, vs) =>
      match writeAllPdb E windowSize cs s1 with
      | none => none
      | some (s2, ns, vss) => some (s2, n :: ns, vs ++ vss)

/-- Sequential feeding of byte chunks to the `reconstructor`-feature facade,
recording the returned results and the appended values. `none` if any call
panics. -/
def writeAllRec (E : Converter T) (windowSize : Nat) :
    List (List Nat) → RollingStatsRec T → Option (RollingStatsRec T × List (Except IoError Nat) × List T)
  | [], s => some (s, [], [])
  | c :: cs, s =>
    match s.write E windowSize c with
    | none => none
    | some (s1, res, vs) =>
      match writeAllRec E windowSize cs s1 with
      | none => none
      | some (s2, ress, vss) => some (s2, res :: ress, vs ++ vss)

/-- A converter decodes successfully on every slice of exactly its width.
Both provided schemes (`LittleEndian`, `BigEndian`) satisfy this. -/
def TotalOnWidth (E : Converter T) : Prop :=
  ∀ g : List Nat, g.length = E.width → ∃ v, E.from_raw g = Except.ok v

/-- Specification-side decoding of a group list: the values of the groups
that decode successfully, in order. -/
def decodeOks (E : Converter T) (gs : List (List Nat)) : List T :=
  gs.filterMap (fun g => (E.from_raw g).toOption)

/-- Specification-side value stream of a byte list: decode every full-width
group. -/
def streamVals (E : Converter T) (l : List Nat) : List T :=
  decodeOks E (chunksExact E.width l)

/-- The values of the longest all-successful group run, in order; what the
decode loop has pushed when it stops. -/
def okValuesUpto (E : Converter T) (gs : List (List Nat)) : List T :=
  decodeOks E (gs.takeWhile (fun g => ((E.from_raw g).toOption).isSome))

/-- States of the `Reconstructor` reachable from a fresh instance by `write`
calls that did not panic (error returns included, since they leave a state). -/
inductive ReachableRecon (E : Converter T) : Reconstructor T → Prop where
  | init : ReachableRecon E Reconstructor.new
  | step {r r' : Reconstructor T} {buf : List Nat} {res : Except IoError Nat} :
      ReachableRecon E r → r.write E buf = some (r', res) → ReachableRecon E r'

/-- States of the `PartialDataBuffer` reachable from a fresh instance by
`consume` calls that did not panic. -/
inductive ReachablePdbBuf (E : Converter T) : PartialDataBuffer → Prop where
  | init : ReachablePdbBuf E PartialDataBuffer.new
  | step {p p' : PartialDataBuffer} {raw out : List Nat} {v : Option T} :
      ReachablePdbBuf E p → p.consume E raw = some (p', v, out) → ReachablePdbBuf E p'

/-- States of the default-build facade reachable from a fresh instance by
`write` calls that did not panic. -/
inductive ReachablePdb (E : Converter T) (windowSize : Nat) : RollingStatsPdb T → Prop where
  | init : ReachablePdb E windowSize RollingStatsPdb.new
  | step {s s' : RollingStatsPdb T} {buf : List Nat} {n : Nat} {vs : List T} :
      ReachablePdb E windowSize s → s.write E windowSize buf = some (s', n, vs) →
      ReachablePdb E windowSize s'

/-- States of the `reconstructor`-feature facade reachable from a fresh
instance by `write` calls that did not panic. -/
inductive ReachableRec (E : Converter T) (windowSize : Nat) : RollingStatsRec T → Prop where
  | init : ReachableRec E windowSize RollingStatsRec.new
  | step {s s' : RollingStatsRec T} {buf : List Nat} {res : Except IoError Nat} {vs : List T} :
      ReachableRec E windowSize s → s.write E windowSize buf = some (s', res, vs) →
      ReachableRec E windowSize s'

/-! Lemmas about the chunking combinators. -/

theorem chunksExact_small {w : Nat} {l : List α} (h : l.length < w) :
    chunksExact w l = [] := by
  rw [chunksExact, dif_neg]
  omega

theorem chunksRemainder_small {w : Nat} {l : List α} (h : l.length < w) :
    chunksRemainder w l = l := by
  rw [chunksRemainder, dif_neg]
  omega

theorem chunksExact_step {w : Nat} {l : List α} (hw : 0 < w) (hl : w ≤ l.length) :
    chunksExact w l = l.take w :: chunksExact w (l.drop w) := by
  rw [chunksExact, dif_pos ⟨hw, hl⟩]

theorem chunksRemainder_step {w : Nat} {l : List α} (hw : 0 < w) (hl : w ≤ l.length) :
    chunksRemainder w l = chunksRemainder w (l.drop w) := by
  rw [chunksRemainder, dif_pos ⟨hw, hl⟩]

theorem sub_mod_self {L w : Nat} (h : w ≤ L) : (L - w) % w = L % w := by
  conv_rhs => rw [show L = L - w + w by omega]
  rw [Nat.add_mod_right]

theorem chunksRemainder_eq_drop {w : Nat} (hw : 0 < w) (l : List α) :
    chunksRemainder w l = l.drop (l.length - l.length % w) := by
  suffices H : ∀ (n : Nat) (l : List α), l.length ≤ n →
      chunksRemainder w l = l.drop (l.length - l.length % w) by
    exact H l.length l le_rfl
  intro n
  induction n with
  | zero =>
    intro l hn
    rw [chunksRemainder_small (by omega), Nat.mod_eq_of_lt (by omega)]
    simp
  | succ n ih =>
    intro l hn
    by_cases hl : w ≤ l.length
    · rw [chunksRemainder_step hw hl,
        ih (l.drop w) (by simp only [List.length_drop]; omega),
        List.drop_drop]
      congr 1
      simp only [List.length_drop]
      rw [sub_mod_self hl]
      have h1 := Nat.mod_le (l.length - w) w
      rw [sub_mod_self hl] at h1
      omega
    · rw [chunksRemainder_small (by omega), Nat.mod_eq_of_lt (by omega)]
      simp

theorem length_chunksRemainder {w : Nat} (hw : 0 < w) (l : List α) :
    (chunksRemainder w l).length = l.length % w := by
  rw [chunksRemainder_eq_drop hw, List.length_drop]
  have := Nat.mod_le l.length w
  omega

theorem length_chunksRemainder_lt {w : Nat} (hw : 0 < w) (l : List α) :
    (chunksRemainder w l).length < w := by
  rw [length_chunksRemainder hw]
  exact Nat.mod_lt _ hw

theorem chunksExact_take {w : Nat} (hw : 0 < w) (l : List α) :
    chunksExact w (l.take (l.length - l.length % w)) = chunksExact w l := by
  suffices H : ∀ (n : Nat) (l : List α), l.length ≤ n →
      chunksExact w (l.take (l.length - l.length % w)) = chunksExact w l by
    exact H l.length l le_rfl
  intro n
  induction n with
  | zero =>
    intro l hn
    rw [Nat.mod_eq_of_lt (by omega)]
    simp only [Nat.sub_self, List.take_zero]
    rw [chunksExact_small (by simpa using hw), chunksExact_small (by omega)]
  | succ n ih =>
    intro l hn
    by_cases hl : w ≤ l.length
    · have hmod : l.length % w < w := Nat.mod_lt _ hw
      have hmodle : l.length % w ≤ l.length - w := by
        have h1 := Nat.mod_le (l.length - w) w
        rw [sub_mod_self hl] at h1
        omega
      rw [chunksExact_step hw (l := l.take (l.length - l.length % w))
          (by simp only [List.length_take]; omega),
        chunksExact_step hw hl]
      congr 1
      · rw [List.take_take]
        congr 1
        omega
      · rw [List.drop_take]
        have h2 : l.length - l.length % w - w
            = (l.drop w).length - (l.drop w).length % w := by
          simp only [List.length_drop]
          rw [sub_mod_self hl]
          omega
        rw [h2]
        exact ih (l.drop w) (by simp only [List.length_drop]; omega)
    · rw [Nat.mod_eq_of_lt (by omega)]
      simp only [Nat.sub_self, List.take_zero]
      rw [chunksExact_small (by simpa using hw), chunksExact_small (by omega)]

theorem mem_chunksExact_length {w : Nat} (hw : 0 < w) {l g : List α}
    (hg : g ∈ chunksExact w l) : g.length = w := by
  suffices H : ∀ (n : Nat) (l : List α), l.length ≤ n → ∀ g : List α,
      g ∈ chunksExact w l → g.length = w by
    exact H l.length l le_rfl g hg
  clear hg
  intro n
  induction n with
  | zero =>
    intro l hn g hg
    rw [chunksExact_small (by omega)] at hg
    exact absurd hg (List.not_mem_nil g)
  | succ n ih =>
    intro l hn g hg
    by_cases hl : w ≤ l.length
    · rw [chunksExact_step hw hl] at hg
      rcases List.mem_cons.1 hg with h | h
      · subst h
        simp only [List.length_take]
        omega
      · exact ih (l.drop w) (by simp only [List.length_drop]; omega) g h
    · rw [chunksExact_small (by omega)] at hg
      exact absurd hg (List.not_mem_nil g)

theorem chunksExact_compose {w : Nat} (hw : 0 < w) (x y : List α) :
    chunksExact w x ++ chunksExact w (chunksRemainder w x ++ y) = chunksExact w (x ++ y) := by
  suffices H : ∀ (n : Nat) (x : List α), x.length ≤ n →
      chunksExact w x ++ chunksExact w (chunksRemainder w x ++ y) = chunksExact w (x ++ y) by
    exact H x.length x le_rfl
  intro n
  induction n with
  | zero =>
    intro x hn
    rw [chunksExact_small (show x.length < w by omega), chunksRemainder_small (by omega)]
    simp
  | succ n ih =>
    intro x hn
    by_cases hx : w ≤ x.length
    · rw [chunksExact_step hw hx, chunksRemainder_step hw hx,
        chunksExact_step hw (l := x ++ y) (by simp only [List.length_append]; omega),
        List.take_append_of_le_length hx, List.drop_append_of_le_length hx]
      simp only [List.cons_append]
      congr 1
      exact ih (x.drop w) (by simp only [List.length_drop]; omega)
    · rw [chunksExact_small (show x.length < w by omega), chunksRemainder_small (by omega)]
      simp

theorem chunksRemainder_compose {w : Nat} (hw : 0 < w) (x y : List α) :
    chunksRemainder w (chunksRemainder w x ++ y) = chunksRemainder w (x ++ y) := by
  suffices H : ∀ (n : Nat) (x : List α), x.length ≤ n →
      chunksRemainder w (chunksRemainder w x ++ y) = chunksRemainder w (x ++ y) by
    exact H x.length x le_rfl
  intro n
  induction n with
  | zero =>
    intro x hn
    rw [chunksRemainder_small (show x.length < w by omega)]
  | succ n ih =>
    intro x hn
    by_cases hx : w ≤ x.length
    · rw [chunksRemainder_step hw hx,
        chunksRemainder_step hw (l := x ++ y) (by simp only [List.length_append]; omega),
        List.drop_append_of_le_length hx]
      exact ih (x.drop w) (by simp only [List.length_drop]; omega)
    · rw [chunksRemainder_small (show x.length < w by omega)]

theorem chunksExact_cons_group {w : Nat} {g rest : List α} (hw : 0 < w) (hg : g.length = w) :
    chunksExact w (g ++ rest) = g :: chunksExact w rest := by
  rw [chunksExact_step hw (by simp only [List.length_append]; omega)]
  congr 1
  · rw [List.take_append_of_le_length (by omega), ← hg, List.take_length]
  · rw [← hg, List.drop_left]

theorem chunksRemainder_cons_group {w : Nat} {g rest : List α} (hw : 0 < w)
    (hg : g.length = w) :
    chunksRemainder w (g ++ rest) = chunksRemainder w rest := by
  rw [chunksRemainder_step hw (by simp only [List.length_append]; omega), ← hg, List.drop_left]

/-! Lemmas about the eviction loop and `lastN`. -/

theorem popExcess_eq_drop (windowSize : Nat) (l : List T) :
    popExcess windowSize l = l.drop (l.length - windowSize) := by
  suffices H : ∀ (n : Nat) (l : List T), l.length ≤ n →
      popExcess windowSize l = l.drop (l.length - windowSize) by
    exact H l.length l le_rfl
  intro n
  induction n with
  | zero =>
    intro l hn
    rw [popExcess, if_neg (by omega), show l.length - windowSize = 0 by omega, List.drop_zero]
  | succ n ih =>
    intro l hn
    rw [popExcess]
    by_cases h : windowSize < l.length
    · rw [if_pos h, ih l.tail (by simp only [List.length_tail]; omega)]
      rw [← List.drop_one, List.drop_drop]
      simp only [List.length_drop]
      congr 1
      omega
    · rw [if_neg h, show l.length - windowSize = 0 by omega, List.drop_zero]

theorem popExcess_eq_lastN (windowSize : Nat) (l : List T) :
    popExcess windowSize l = lastN windowSize l :=
  popExcess_eq_drop windowSize l

theorem lastN_length (n : Nat) (l : List α) : (lastN n l).length = min l.length n := by
  simp only [lastN, List.length_drop]
  omega

theorem lastN_of_length_le {n : Nat} {l : List α} (h : l.length ≤ n) : lastN n l = l := by
  simp only [lastN, show l.length - n = 0 by omega, List.drop_zero]

theorem lastN_eq_reverse_take (n : Nat) (l : List α) :
    lastN n l = (l.reverse.take n).reverse :=
  List.rtake_eq_reverse_take_reverse l n

theorem lastN_append_lastN (n : Nat) (a b : List α) :
    lastN n (lastN n a ++ b) = lastN n (a ++ b) := by
  rw [lastN_eq_reverse_take n a, lastN_eq_reverse_take, lastN_eq_reverse_take,
    List.reverse_append, List.reverse_reverse, List.reverse_append]
  congr 1
  rw [List.take_append_eq_append_take, List.take_append_eq_append_take]
  congr 1
  rw [List.take_take]
  congr 1
  omega

/-! Lemmas about the decoding helpers. -/

theorem toOption_ok {T : Type} (v : T) :
    (Except.ok v : Except RawConversionError T).toOption = some v := rfl

theorem toOption_error {T : Type} (e : RawConversionError) :
    (Except.error e : Except RawConversionError T).toOption = none := rfl

theorem decodeOks_nil (E : Converter T) : decodeOks E [] = [] := rfl

theorem decodeOks_cons_ok (E : Converter T) {g : List Nat} {v : T}
    (hv : E.from_raw g = Except.ok v) (gs : List (List Nat)) :
    decodeOks E (g :: gs) = v :: decodeOks E gs := by
  simp [decodeOks, List.filterMap_cons, hv, Except.toOption]

theorem decodeLoop_total {E : Converter T} :
    ∀ {gs : List (List Nat)}, (∀ g ∈ gs, ∃ v, E.from_raw g = Except.ok v) →
      decodeLoop E gs = (decodeOks E gs, none)
  | [], _ => rfl
  | g :: gs, h => by
    obtain ⟨v, hv⟩ := h g (List.mem_cons_self g gs)
    rw [decodeLoop, hv, decodeLoop_total (fun g hg => h g (List.mem_cons_of_mem _ hg)),
      decodeOks_cons_ok E hv]

theorem mapM_toOption_total {E : Converter T} :
    ∀ {gs : List (List Nat)}, (∀ g ∈ gs, ∃ v, E.from_raw g = Except.ok v) →
      gs.mapM (fun g => (E.from_raw g).toOption) = some (decodeOks E gs)
  | [], _ => rfl
  | g :: gs, h => by
    obtain ⟨v, hv⟩ := h g (List.mem_cons_self g gs)
    rw [List.mapM_cons, hv, mapM_toOption_total (fun g hg => h g (List.mem_cons_of_mem _ hg)),
      decodeOks_cons_ok E hv]
    rfl

theorem LittleEndian_total : TotalOnWidth LittleEndian := by
  intro g hg
  refine ⟨toI32 (leNat (g.take 4)), ?_⟩
  simp only [LittleEndian] at hg ⊢
  rw [if_neg (by omega)]

theorem BigEndian_total : TotalOnWidth BigEndian := by
  intro g hg
  refine ⟨toI32 (leNat (g.take 4).reverse), ?_⟩
  simp only [BigEndian] at hg ⊢
  rw [if_neg (by omega)]

theorem streamVals_small {E : Converter T} {l : List Nat} (h : l.length < E.width) :
    streamVals E l = [] := by
  rw [streamVals, chunksExact_small h, decodeOks_nil]

/-- Under the leftover invariant and a converter that decodes every
width-sized slice, `Reconstructor::write` succeeds, returns `Ok(buf.len())`,
leaves as leftover exactly the trailing partial group of the total byte
stream `leftover ++ buf`, and appends exactly the decoded full groups of that
stream. -/
theorem recon_write_total {T : Type} (E : Converter T) (r : Reconstructor T) (buf : List Nat)
    (hw : 0 < E.width) (hinv : r.intermediate_buffer.length < E.width) (htot : TotalOnWidth E) :
    r.write E buf = some (⟨chunksRemainder E.width (r.intermediate_buffer ++ buf),
      r.buffer ++ streamVals E (r.intermediate_buffer ++ buf)⟩, Except.ok buf.length) := by
  simp only [Reconstructor.write]
  by_cases hsmall : buf.length + r.intermediate_buffer.length < E.width
  · rw [if_pos hsmall]
    have hlen : (r.intermediate_buffer ++ buf).length < E.width := by
      simp only [List.length_append]
      omega
    rw [chunksRemainder_small hlen, streamVals_small hlen, List.append_nil]
  · rw [if_neg hsmall]
    by_cases hib : r.intermediate_buffer = []
    · rw [hib]
      rw [decodeLoop_total (fun g hg => htot g (mem_chunksExact_length hw hg))]
      simp [writeOffset, streamVals]
    · have hoff : writeOffset E.width r.intermediate_buffer = E.width - r.intermediate_buffer.length := by
        simp [writeOffset, hib]
      have hlen0 : 0 < r.intermediate_buffer.length := List.length_pos.2 hib
      have hoffpos : 0 < writeOffset E.width r.intermediate_buffer := by omega
      have hbuflen : writeOffset E.width r.intermediate_buffer ≤ buf.length := by omega
      have hg : (r.intermediate_buffer ++ buf.take (writeOffset E.width r.intermediate_buffer)).length
          = E.width := by
        simp only [List.length_append, List.length_take]
        omega
      obtain ⟨v, hv⟩ := htot _ hg
      simp only [if_pos hoffpos, hv]
      rw [decodeLoop_total (fun g hg => htot g (mem_chunksExact_length hw hg))]
      have hsplit : r.intermediate_buffer ++ buf
          = (r.intermediate_buffer ++ buf.take (writeOffset E.width r.intermediate_buffer))
            ++ buf.drop (writeOffset E.width r.intermediate_buffer) := by
        rw [List.append_assoc, List.take_append_drop]
      rw [hsplit, streamVals, chunksExact_cons_group hw hg, decodeOks_cons_ok E hv,
        chunksRemainder_cons_group hw hg]
      simp [streamVals]

/-- Under the leftover invariant and a converter that decodes every
width-sized slice, `PartialDataBuffer::consume` succeeds, stores exactly the
trailing partial group of `buffer ++ raw` as the new leftover, and its two
outputs (the reconstructed leftover value and the full-group slice) decode to
exactly the full groups of `buffer ++ raw`. -/
theorem consume_total {T : Type} (E : Converter T) (p : PartialDataBuffer) (raw : List Nat)
    (hw : 0 < E.width) (hinv : p.buffer.length < E.width) (htot : TotalOnWidth E) :
    ∃ h m, p.consume E raw = some (⟨chunksRemainder E.width (p.buffer ++ raw)⟩, h, m) ∧
      (chunksExact E.width m).mapM (fun g => (E.from_raw g).toOption)
        = some (decodeOks E (chunksExact E.width m)) ∧
      h.toList ++ decodeOks E (chunksExact E.width m) = streamVals E (p.buffer ++ raw) := by
  have hmapM : ∀ m : List Nat,
      (chunksExact E.width m).mapM (fun g => (E.from_raw g).toOption)
        = some (decodeOks E (chunksExact E.width m)) :=
    fun m => mapM_toOption_total (fun g hg => htot g (mem_chunksExact_length hw hg))
  by_cases hsmall : p.buffer.length + raw.length < E.width
  · have hlen : (p.buffer ++ raw).length < E.width := by
      simp only [List.length_append]
      omega
    refine ⟨none, [], ?_, hmapM [], ?_⟩
    · simp only [PartialDataBuffer.consume, if_pos hsmall, chunksRemainder_small hlen]
    · rw [streamVals_small hlen, chunksExact_small (by simpa using hw), decodeOks_nil]
      rfl
  · by_cases hib : p.buffer = []
    · have hoff : writeOffset E.width p.buffer = 0 := by
        simp [writeOffset, hib]
      refine ⟨none, raw.take (raw.length - raw.length % E.width), ?_, hmapM _, ?_⟩
      · simp only [PartialDataBuffer.consume, if_neg hsmall, hoff, if_neg (lt_irrefl 0),
          List.drop_zero, Nat.sub_zero]
        rw [hib]
        simp only [List.nil_append]
        refine congrArg some (Prod.ext ?_ rfl)
        refine congrArg PartialDataBuffer.mk ?_
        rw [chunksRemainder_eq_drop hw]
        by_cases hrem : 0 < raw.length % E.width
        · rw [if_pos hrem]
        · rw [if_neg hrem]
          exact (List.drop_of_length_le (by omega)).symm
      · rw [hib, List.nil_append, streamVals, chunksExact_take hw raw]
        rfl
    · have hlen0 : 0 < p.buffer.length := List.length_pos.2 hib
      have hoff : writeOffset E.width p.buffer = E.width - p.buffer.length := by
        simp [writeOffset, hib]
      set off := E.width - p.buffer.length with hoffdef
      have hoffpos : 0 < off := by omega
      have hoffle : off ≤ raw.length := by omega
      have hg : (p.buffer ++ raw.take off).length = E.width := by
        simp only [List.length_append, List.length_take]
        omega
      obtain ⟨v, hv⟩ := htot _ hg
      have hsplit : p.buffer ++ raw = (p.buffer ++ raw.take off) ++ raw.drop off := by
        rw [List.append_assoc, List.take_append_drop]
      have hlend : (raw.drop off).length = raw.length - off := List.length_drop off raw
      have hmodle : (raw.length - off) % E.width ≤ raw.length - off := Nat.mod_le _ _
      refine ⟨some v,
        (raw.drop off).take ((raw.drop off).length - (raw.drop off).length % E.width),
        ?_, hmapM _, ?_⟩
      · simp only [PartialDataBuffer.consume, if_neg hsmall, hoff, if_pos hoffpos, hv]
        refine congrArg some (Prod.ext ?_ (Prod.ext rfl ?_))
        · refine congrArg PartialDataBuffer.mk ?_
          rw [hsplit, chunksRemainder_cons_group hw hg, chunksRemainder_eq_drop hw, hlend]
          by_cases hrem : 0 < (raw.length - off) % E.width
          · rw [if_pos hrem, List.nil_append, List.drop_drop]
            congr 1
            omega
          · rw [if_neg hrem]
            exact (List.drop_of_length_le (by rw [hlend]; omega)).symm
        · rw [hlend, show raw.length - (raw.length - off) % E.width - off
              = raw.length - off - (raw.length - off) % E.width from by omega]
      · rw [hsplit, streamVals, chunksExact_cons_group hw hg, decodeOks_cons_ok E hv,
          chunksExact_take hw (raw.drop off)]
        rfl

/-- Complete characterization of `Reconstructor::write` under the leftover
invariant, with no assumption on the converter: the absorbing case, the panic
case (failing leftover-completion decode), and the loop case, in which the
new leftover is always the trailing partial group of the remaining bytes. -/
theorem recon_write_eq {T : Type} (E : Converter T) (r : Reconstructor T) (buf : List Nat)
    (_hw : 0 < E.width) (hinv : r.intermediate_buffer.length < E.width) :
    r.write E buf =
      if buf.length + r.intermediate_buffer.length < E.width then
        some (⟨r.intermediate_buffer ++ buf, r.buffer⟩, Except.ok buf.length)
      else
        match step1Vals E r buf with
        | none => none
        | some vs1 =>
          match (decodeLoop E (chunksExact E.width
              (buf.drop (writeOffset E.width r.intermediate_buffer)))).2 with
          | some _ => some (⟨chunksRemainder E.width
                (buf.drop (writeOffset E.width r.intermediate_buffer)),
              r.buffer ++ vs1 ++ (decodeLoop E (chunksExact E.width
                (buf.drop (writeOffset E.width r.intermediate_buffer)))).1⟩,
              Except.error IoError.invalidData)
          | none => some (⟨chunksRemainder E.width
                (buf.drop (writeOffset E.width r.intermediate_buffer)),
              r.buffer ++ vs1 ++ (decodeLoop E (chunksExact E.width
                (buf.drop (writeOffset E.width r.intermediate_buffer)))).1⟩,
              Except.ok buf.length) := by
  simp only [Reconstructor.write]
  by_cases hsmall : buf.length + r.intermediate_buffer.length < E.width
  · rw [if_pos hsmall, if_pos hsmall]
  · rw [if_neg hsmall, if_neg hsmall]
    by_cases hib : r.intermediate_buffer = []
    · have hoff : writeOffset E.width r.intermediate_buffer = 0 := by
        simp [writeOffset, hib]
      rw [hoff, if_neg (lt_irrefl 0), step1Vals, if_pos hib]
      rw [hib]
      simp only [List.nil_append]
    · have hoff : writeOffset E.width r.intermediate_buffer
          = E.width - r.intermediate_buffer.length := by
        simp [writeOffset, hib]
      have hlen0 : 0 < r.intermediate_buffer.length := List.length_pos.2 hib
      have hoffpos : 0 < writeOffset E.width r.intermediate_buffer := by omega
      rw [if_pos hoffpos, step1Vals, if_neg hib]
      cases hfr : E.from_raw (r.intermediate_buffer
          ++ buf.take (writeOffset E.width r.intermediate_buffer)) with
      | error e => rfl
      | ok v => simp only [List.nil_append]

theorem pdb_write_total {T : Type} (E : Converter T) (windowSize : Nat) (s : RollingStatsPdb T)
    (buf : List Nat) (hw : 0 < E.width) (hinv : s.intermediate_buffer.buffer.length < E.width)
    (htot : TotalOnWidth E) :
    s.write E windowSize buf
      = some (⟨⟨chunksRemainder E.width (s.intermediate_buffer.buffer ++ buf)⟩,
          popExcess windowSize
            (s.buffer ++ streamVals E (s.intermediate_buffer.buffer ++ buf))⟩,
        buf.length, streamVals E (s.intermediate_buffer.buffer ++ buf)) := by
  obtain ⟨h, m, hc, hm, hvals⟩ := consume_total E s.intermediate_buffer buf hw hinv htot
  simp only [RollingStatsPdb.write, hc, hm]
  rw [← hvals]

theorem rec_write_total {T : Type} (E : Converter T) (windowSize : Nat) (s : RollingStatsRec T)
    (buf : List Nat) (hw : 0 < E.width)
    (hinv : s.reconstructor.intermediate_buffer.length < E.width)
    (hrb : s.reconstructor.buffer = []) (htot : TotalOnWidth E) :
    s.write E windowSize buf
      = some (⟨⟨chunksRemainder E.width (s.reconstructor.intermediate_buffer ++ buf), []⟩,
          popExcess windowSize
            (s.buffer ++ streamVals E (s.reconstructor.intermediate_buffer ++ buf))⟩,
        Except.ok buf.length, streamVals E (s.reconstructor.intermediate_buffer ++ buf)) := by
  simp only [RollingStatsRec.write,
    recon_write_total E s.reconstructor buf hw hinv htot, hrb]
  simp only [List.nil_append, Reconstructor.flush]

theorem popExcess_length (windowSize : Nat) (l : List T) :
    (popExcess windowSize l).length = min l.length windowSize := by
  rw [popExcess_eq_drop, List.length_drop]
  omega

/-- Preservation of the leftover invariant by `Reconstructor::write`, with no
assumption on the converter, together with preservation of the previously
parsed values. -/
theorem recon_write_inv {T : Type} {E : Converter T} {r r' : Reconstructor T} {buf : List Nat}
    {res : Except IoError Nat} (hw : 0 < E.width)
    (hinv : r.intermediate_buffer.length < E.width)
    (h : r.write E buf = some (r', res)) :
    r'.intermediate_buffer.length < E.width ∧ ∃ t, r'.buffer = r.buffer ++ t := by
  rw [recon_write_eq E r buf hw hinv] at h
  split at h
  · next hsmall =>
    simp only [Option.some.injEq, Prod.mk.injEq] at h
    obtain ⟨h1, -⟩ := h
    subst h1
    refine ⟨by simp only [List.length_append]; omega, [], ?_⟩
    simp
  · next hsmall =>
    cases hs1 : step1Vals E r buf with
    | none => rw [hs1] at h; exact absurd h (by simp)
    | some vs1 =>
      rw [hs1] at h
      cases hl2 : (decodeLoop E (chunksExact E.width
          (buf.drop (writeOffset E.width r.intermediate_buffer)))).2 with
      | none =>
        rw [hl2] at h
        simp only [Option.some.injEq, Prod.mk.injEq] at h
        obtain ⟨h1, -⟩ := h
        subst h1
        exact ⟨length_chunksRemainder_lt hw _, _, List.append_assoc _ _ _⟩
      | some e =>
        rw [hl2] at h
        simp only [Option.some.injEq, Prod.mk.injEq] at h
        obtain ⟨h1, -⟩ := h
        subst h1
        exact ⟨length_chunksRemainder_lt hw _, _, List.append_assoc _ _ _⟩

/-- Preservation of the leftover invariant by `PartialDataBuffer::consume`,
with no assumption on the converter. -/
theorem pdb_consume_inv {T : Type} {E : Converter T} {p p' : PartialDataBuffer}
    {raw out : List Nat} {v : Option T} (hw : 0 < E.width)
    (hinv : p.buffer.length < E.width)
    (h : p.consume E raw = some (p', v, out)) : p'.buffer.length < E.width := by
  simp only [PartialDataBuffer.consume] at h
  split at h
  · next hsmall =>
    simp only [Option.some.injEq, Prod.mk.injEq] at h
    obtain ⟨h1, -⟩ := h
    subst h1
    simp only [List.length_append]
    omega
  · next hsmall =>
    by_cases hib : p.buffer = []
    · have hoff : writeOffset E.width p.buffer = 0 := by
        simp [writeOffset, hib]
      rw [hoff, if_neg (lt_irrefl 0)] at h
      simp only [Option.some.injEq, Prod.mk.injEq] at h
      obtain ⟨h1, -⟩ := h
      subst h1
      have hml : (raw.length - 0) % E.width < E.width := Nat.mod_lt _ hw
      have hme : (raw.length - 0) % E.width ≤ raw.length - 0 := Nat.mod_le _ _
      split
      · next hrem =>
        rw [hib]
        simp only [List.nil_append, List.length_drop]
        omega
      · next hrem =>
        exact hinv
    · have hoff : writeOffset E.width p.buffer
          = E.width - p.buffer.length := by
        simp [writeOffset, hib]
      have hlen0 : 0 < p.buffer.length := List.length_pos.2 hib
      have hoffpos : 0 < writeOffset E.width p.buffer := by omega
      rw [if_pos hoffpos] at h
      cases hfr : E.from_raw (p.buffer ++ raw.take (writeOffset E.width p.buffer)) with
      | error e => rw [hfr] at h; exact absurd h (by simp)
      | ok w =>
        rw [hfr] at h
        simp only [Option.some.injEq, Prod.mk.injEq] at h
        obtain ⟨h1, -⟩ := h
        subst h1
        have hml : (raw.length - writeOffset E.width p.buffer) % E.width < E.width :=
          Nat.mod_lt _ hw
        have hme : (raw.length - writeOffset E.width p.buffer) % E.width
            ≤ raw.length - writeOffset E.width p.buffer := Nat.mod_le _ _
        split
        · next hrem =>
          simp only [List.nil_append, List.length_drop]
          omega
        · next hrem =>
          simpa using hw

/-- Preservation of the facade invariants by the default-build `write`. -/
theorem pdb_write_inv {T : Type} {E : Converter T} {ws : Nat} {s s' : RollingStatsPdb T}
    {buf : List Nat} {n : Nat} {vs : List T} (hw : 0 < E.width)
    (hinv : s.intermediate_buffer.buffer.length < E.width)
    (h : s.write E ws buf = some (s', n, vs)) :
    s'.intermediate_buffer.buffer.length < E.width ∧ s'.buffer.length ≤ ws := by
  simp only [RollingStatsPdb.write] at h
  cases hc : s.intermediate_buffer.consume E buf with
  | none => rw [hc] at h; exact absurd h (by simp)
  | some t =>
    obtain ⟨p1, reconstructed, remaining⟩ := t
    rw [hc] at h
    dsimp only at h
    cases hm : (chunksExact E.width remaining).mapM (fun g => (E.from_raw g).toOption) with
    | none => rw [hm] at h; exact absurd h (by simp)
    | some parsed =>
      rw [hm] at h
      simp only [Option.some.injEq, Prod.mk.injEq] at h
      obtain ⟨h1, -, -⟩ := h
      subst h1
      refine ⟨pdb_consume_inv hw hinv hc, ?_⟩
      rw [popExcess_length]
      omega

/-- Preservation of the facade invariants by the `reconstructor`-feature
`write`: the leftover stays below the width, the parsed-value buffer is left
flushed, and the window stays bounded. -/
theorem rec_write_inv {T : Type} {E : Converter T} {ws : Nat} {s s' : RollingStatsRec T}
    {buf : List Nat} {res : Except IoError Nat} {vs : List T} (hw : 0 < E.width)
    (hinv : s.reconstructor.intermediate_buffer.length < E.width)
    (h : s.write E ws buf = some (s', res, vs)) :
    s'.reconstructor.intermediate_buffer.length < E.width ∧ s'.reconstructor.buffer = []
      ∧ s'.buffer.length ≤ ws := by
  simp only [RollingStatsRec.write] at h
  cases hc : s.reconstructor.write E buf with
  | none => rw [hc] at h; exact absurd h (by simp)
  | some t =>
    obtain ⟨r1, result⟩ := t
    rw [hc] at h
    dsimp only at h
    simp only [Option.some.injEq, Prod.mk.injEq] at h
    obtain ⟨h1, -, -⟩ := h
    subst h1
    obtain ⟨hr1, -⟩ := recon_write_inv hw hinv hc
    refine ⟨hr1, rfl, ?_⟩
    rw [popExcess_length]
    omega

theorem reachableRecon_inv {T : Type} {E : Converter T} (hw : 0 < E.width)
    {r : Reconstructor T} (h : ReachableRecon E r) :
    r.intermediate_buffer.length < E.width := by
  induction h with
  | init => simpa [Reconstructor.new] using hw
  | step hprev hstep ih => exact (recon_write_inv hw ih hstep).1

theorem reachablePdbBuf_inv {T : Type} {E : Converter T} (hw : 0 < E.width)
    {p : PartialDataBuffer} (h : ReachablePdbBuf E p) :
    p.buffer.length < E.width := by
  induction h with
  | init => simpa [PartialDataBuffer.new] using hw
  | step hprev hstep ih => exact pdb_consume_inv hw ih hstep

theorem reachablePdb_inv {T : Type} {E : Converter T} {ws : Nat} (hw : 0 < E.width)
    {s : RollingStatsPdb T} (h : ReachablePdb E ws s) :
    s.intermediate_buffer.buffer.length < E.width ∧ s.buffer.length ≤ ws := by
  induction h with
  | init =>
    refine ⟨by simpa [RollingStatsPdb.new, PartialDataBuffer.new] using hw, ?_⟩
    simp [RollingStatsPdb.new]
  | step hprev hstep ih => exact pdb_write_inv hw ih.1 hstep

theorem reachableRec_inv {T : Type} {E : Converter T} {ws : Nat} (hw : 0 < E.width)
    {s : RollingStatsRec T} (h : ReachableRec E ws s) :
    s.reconstructor.intermediate_buffer.length < E.width ∧ s.reconstructor.buffer = []
      ∧ s.buffer.length ≤ ws := by
  induction h with
  | init =>
    refine ⟨by simpa [RollingStatsRec.new, Reconstructor.new] using hw, rfl, ?_⟩
    simp [RollingStatsRec.new]
  | step hprev hstep ih => exact rec_write_inv hw ih.1 hstep

theorem streamVals_compose {T : Type} {E : Converter T} (hw : 0 < E.width) (x y : List Nat) :
    streamVals E x ++ streamVals E (chunksRemainder E.width x ++ y) = streamVals E (x ++ y) := by
  rw [streamVals, streamVals, streamVals, ← chunksExact_compose hw x y, decodeOks, decodeOks,
    decodeOks, List.filterMap_append]

/-- Full run of the default-build facade over a chunk list, starting from any
state satisfying the invariants: every call succeeds, the counts are the
chunk lengths, the decoded values are the full groups of the whole stream,
and the final window retains the last `ws` of the initial window plus all
decoded values. -/
theorem writeAllPdb_total {T : Type} (E : Converter T) (ws : Nat) (hw : 0 < E.width)
    (htot : TotalOnWidth E) :
    ∀ (cs : List (List Nat)) (l0 : List Nat) (win0 : List T),
      l0.length < E.width → win0.length ≤ ws →
      writeAllPdb E ws cs ⟨⟨l0⟩, win0⟩
        = some (⟨⟨chunksRemainder E.width (l0 ++ cs.flatten)⟩,
            lastN ws (win0 ++ streamVals E (l0 ++ cs.flatten))⟩,
          cs.map List.length, streamVals E (l0 ++ cs.flatten)) := by
  intro cs
  induction cs with
  | nil =>
    intro l0 win0 hl hwin
    rw [writeAllPdb, List.flatten_nil, List.append_nil, chunksRemainder_small hl,
      streamVals_small hl, List.append_nil, lastN_of_length_le hwin, List.map_nil]
  | cons c cs ih =>
    intro l0 win0 hl hwin
    rw [writeAllPdb, pdb_write_total E ws ⟨⟨l0⟩, win0⟩ c hw hl htot]
    dsimp only
    rw [popExcess_eq_lastN]
    rw [ih (chunksRemainder E.width (l0 ++ c))
        (lastN ws (win0 ++ streamVals E (l0 ++ c)))
        (length_chunksRemainder_lt hw _) (by rw [lastN_length]; omega)]
    dsimp only
    rw [List.flatten_cons, ← List.append_assoc l0 c cs.flatten,
      chunksRemainder_compose hw (l0 ++ c) cs.flatten,
      lastN_append_lastN, List.append_assoc win0,
      streamVals_compose hw (l0 ++ c) cs.flatten, List.map_cons]

/-- Full run of the `reconstructor`-feature facade over a chunk list; same
characterisation as the default build, with `Ok` byte-count results. -/
theorem writeAllRec_total {T : Type} (E : Converter T) (ws : Nat) (hw : 0 < E.width)
    (htot : TotalOnWidth E) :
    ∀ (cs : List (List Nat)) (l0 : List Nat) (win0 : List T),
      l0.length < E.width → win0.length ≤ ws →
      writeAllRec E ws cs ⟨⟨l0, []⟩, win0⟩
        = some (⟨⟨chunksRemainder E.width (l0 ++ cs.flatten), []⟩,
            lastN ws (win0 ++ streamVals E (l0 ++ cs.flatten))⟩,
          cs.map (fun c => Except.ok c.length), streamVals E (l0 ++ cs.flatten)) := by
  intro cs
  induction cs with
  | nil =>
    intro l0 win0 hl hwin
    rw [writeAllRec, List.flatten_nil, List.append_nil, chunksRemainder_small hl,
      streamVals_small hl, List.append_nil, lastN_of_length_le hwin, List.map_nil]
  | cons c cs ih =>
    intro l0 win0 hl hwin
    rw [writeAllRec, rec_write_total E ws ⟨⟨l0, []⟩, win0⟩ c hw hl rfl htot]
    dsimp only
    rw [popExcess_eq_lastN]
    rw [ih (chunksRemainder E.width (l0 ++ c))
        (lastN ws (win0 ++ streamVals E (l0 ++ c)))
        (length_chunksRemainder_lt hw _) (by rw [lastN_length]; omega)]
    dsimp only
    rw [List.flatten_cons, ← List.append_assoc l0 c cs.flatten,
      chunksRemainder_compose hw (l0 ++ c) cs.flatten,
      lastN_append_lastN, List.append_assoc win0,
      streamVals_compose hw (l0 ++ c) cs.flatten, List.map_cons]

theorem foldl_add_map_sum (f : Int → ℚ) :
    ∀ (l : List Int) (a : ℚ), l.foldl (fun acc item => acc + f item) a = a + (l.map f).sum
  | [], a => by simp
  | x :: l, a => by
    rw [List.foldl_cons, foldl_add_map_sum f l (a + f x), List.map_cons, List.sum_cons]
    ring

theorem sqDevSum_eq_map_sum (windowSize : Nat) (l : List Int) :
    sqDevSum windowSize l
      = (l.map (fun x : Int => ((x : ℚ) - mean windowSize l) ^ 2)).sum := by
  rw [sqDevSum, foldl_add_map_sum, zero_add]

/-- C4: `mean()` is the window sum (native `i32` addition, converted to
floating point) divided by `max(1, min(WINDOW_SIZE, len()))`; the divisor is
positive, so no division by zero occurs, and the empty window yields `0`. -/
theorem mean_spec (windowSize : Nat) (l : List Int) :
    mean windowSize l
        = (windowSum l : ℚ) / ((max 1 (min windowSize l.length) : Nat) : ℚ)
      ∧ 0 < max 1 (min windowSize l.length)
      ∧ mean windowSize [] = 0 := by
  refine ⟨?_, Nat.lt_of_lt_of_le Nat.one_pos (Nat.le_max_left 1 _), by simp [mean, windowSum]⟩
  rw [mean, Nat.max_comm]

/-- C5: `std_dev()` is the square root of the sum of squared deviations of
the window values from `mean()`, divided by `max(2, min(WINDOW_SIZE, len()))
minus one; that divisor is always at least `1`, so neither the subtraction
nor the division can fault, for any window length. -/
theorem std_dev_spec (windowSize : Nat) (l : List Int) :
    std_dev windowSize l
        = Real.sqrt ((((l.map (fun x : Int => ((x : ℚ) - mean windowSize l) ^ 2)).sum
            / ((max 2 (min windowSize l.length) - 1 : Nat) : ℚ) : ℚ) : ℝ))
      ∧ 1 ≤ stdDevDivisor windowSize l := by
  constructor
  · rw [std_dev, sqDevSum_eq_map_sum, stdDevDivisor, Nat.max_comm]
  · rw [stdDevDivisor]
    have h2 : 2 ≤ (windowSize.min l.length).max 2 := Nat.le_max_right _ _
    exact Nat.le_sub_of_add_le h2

/-- C9: `rand()` fails exactly when the normal-distribution parameters are
invalid (negative standard deviation, in the real-number idealisation of the
`rand_distr` constructor), and on failure no value is produced; since
`std_dev()` is a real square root it is never negative, so `rand()` in fact
always draws one sample from the distribution parameterised by the current
`mean()` and `std_dev()`. -/
theorem rand_spec (sample : ℝ × ℝ → ℝ) (windowSize : Nat) (l : List Int) :
    (rand sample windowSize l = none ↔ ¬ 0 ≤ std_dev windowSize l)
      ∧ rand sample windowSize l
          = some (sample (((mean windowSize l : ℚ) : ℝ), std_dev windowSize l)) := by
  have hnn : 0 ≤ std_dev windowSize l := Real.sqrt_nonneg _
  have hok : rand sample windowSize l
      = some (sample (((mean windowSize l : ℚ) : ℝ), std_dev windowSize l)) := by
    rw [rand, normalNew, if_pos hnn]
  refine ⟨⟨fun h => ?_, fun h => absurd hnn h⟩, hok⟩
  rw [hok] at h
  exact absurd h (by simp)

/-- C1: chunking invariance and byte conservation for the facade's `write`:
feeding the chunks one call at a time produces the same decoded-value
sequence and the same final state as writing the whole concatenation in one
call, and the consumed-byte counts returned by the successful calls sum to
the total of the chunk lengths. -/
theorem chunking_invariance {T : Type} (E : Converter T) (ws : Nat)
    (hw : 0 < E.width) (htot : TotalOnWidth E) (cs : List (List Nat)) :
    ∃ s₁ counts₁ vals₁ s₂ counts₂ vals₂,
      writeAllPdb E ws cs RollingStatsPdb.new = some (s₁, counts₁, vals₁) ∧
      writeAllPdb E ws [cs.flatten] RollingStatsPdb.new = some (s₂, counts₂, vals₂) ∧
      vals₁ = vals₂ ∧ s₁ = s₂ ∧
      counts₁.sum = (cs.map List.length).sum ∧
      counts₂.sum = cs.flatten.length := by
  have h1 := writeAllPdb_total E ws hw htot cs [] [] (by simpa using hw) (by simp)
  have h2 := writeAllPdb_total E ws hw htot [cs.flatten] [] [] (by simpa using hw) (by simp)
  refine ⟨_, _, _, _, _, _, h1, h2, ?_, ?_, rfl, ?_⟩
  · simp
  · simp
  · simp

/-- C2: window bound and recency: for every chunk sequence fed from a fresh
instance, every call succeeds, the final window length is at most
`WINDOW_SIZE`, and the window is exactly the most recently decoded
`WINDOW_SIZE` values in arrival order, so `mean()` and `std_dev()` are
computed over exactly those values. -/
theorem window_bound_recency (E : Converter Int) (ws : Nat)
    (hw : 0 < E.width) (htot : TotalOnWidth E) (cs : List (List Nat)) :
    ∃ s counts vals,
      writeAllPdb E ws cs RollingStatsPdb.new = some (s, counts, vals) ∧
      s.len ≤ ws ∧
      s.buffer = lastN ws vals ∧
      mean ws s.buffer = mean ws (lastN ws vals) ∧
      std_dev ws s.buffer = std_dev ws (lastN ws vals) := by
  have h1 := writeAllPdb_total E ws hw htot cs [] [] (by simpa using hw) (by simp)
  refine ⟨_, _, _, h1, ?_, ?_, ?_, ?_⟩
  · show (lastN ws ([] ++ streamVals E ([] ++ cs.flatten))).length ≤ ws
    rw [lastN_length]
    omega
  · simp
  · simp
  · simp

/-- C3: the leftover invariant: every `Reconstructor` state and every
`PartialDataBuffer` state reachable from a fresh instance has strictly fewer
leftover bytes than the value width. -/
theorem leftover_invariant {T : Type} (E : Converter T) (hw : 0 < E.width) :
    (∀ r : Reconstructor T, ReachableRecon E r →
      r.intermediate_buffer.length < E.width) ∧
    (∀ p : PartialDataBuffer, ReachablePdbBuf (T := T) E p →
      p.buffer.length < E.width) :=
  ⟨fun _ h => reachableRecon_inv hw h, fun _ h => reachablePdbBuf_inv hw h⟩

/-- C6: the two buffering strategies are equivalent: on every chunk sequence
fed from fresh instances, the `Reconstructor`-based and
`PartialDataBuffer`-based facades produce the same final window contents, the
same `len()`, the same decoded values, and the same consumed-byte counts
(all `Ok`). -/
theorem buffering_strategies_equivalent {T : Type} (E : Converter T) (ws : Nat)
    (hw : 0 < E.width) (htot : TotalOnWidth E) (cs : List (List Nat)) :
    ∃ sR ressR valsR sP counts valsP,
      writeAllRec E ws cs RollingStatsRec.new = some (sR, ressR, valsR) ∧
      writeAllPdb E ws cs RollingStatsPdb.new = some (sP, counts, valsP) ∧
      sR.buffer = sP.buffer ∧ sR.len = sP.len ∧ valsR = valsP ∧
      ressR = counts.map Except.ok := by
  have h1 := writeAllRec_total E ws hw htot cs [] [] (by simpa using hw) (by simp)
  have h2 := writeAllPdb_total E ws hw htot cs [] [] (by simpa using hw) (by simp)
  refine ⟨_, _, _, _, _, _, h1, h2, rfl, rfl, rfl, ?_⟩
  rw [List.map_map]
  rfl

/-- C8: with the provided `i32` little-endian and big-endian schemes, every
decode performed on an assembled leftover-plus-prefix buffer or full group is
applied to a slice of exactly the value width, so no `.unwrap()` in the
stream-reconstruction path can panic (no `none` result), and
`Reconstructor::write` always returns `Ok(buf.len())`: `NotEnoughData` never
surfaces past the reconstruction layer. -/
theorem decode_unwrap_safe (E : Converter Int)
    (hE : E = LittleEndian ∨ E = BigEndian) :
    (∀ (r : Reconstructor Int) (buf : List Nat), ReachableRecon E r →
      r.write E buf ≠ none ∧
      ∀ r' res, r.write E buf = some (r', res) → res = Except.ok buf.length) ∧
    (∀ (p : PartialDataBuffer) (raw : List Nat), ReachablePdbBuf (T := Int) E p →
      p.consume E raw ≠ none) ∧
    (∀ (ws : Nat) (s : RollingStatsPdb Int) (buf : List Nat), ReachablePdb E ws s →
      s.write E ws buf ≠ none) ∧
    (∀ (ws : Nat) (s : RollingStatsRec Int) (buf : List Nat), ReachableRec E ws s →
      s.write E ws buf ≠ none) := by
  have hw : 0 < E.width := by
    rcases hE with rfl | rfl <;> decide
  have htot : TotalOnWidth E := by
    rcases hE with rfl | rfl
    · exact LittleEndian_total
    · exact BigEndian_total
  refine ⟨?_, ?_, ?_, ?_⟩
  · intro r buf hr
    rw [recon_write_total E r buf hw (reachableRecon_inv hw hr) htot]
    refine ⟨by simp, ?_⟩
    intro r' res h
    simp only [Option.some.injEq, Prod.mk.injEq] at h
    exact h.2.symm
  · intro p raw hp
    obtain ⟨h, m, hc, -, -⟩ := consume_total E p raw hw (reachablePdbBuf_inv hw hp) htot
    rw [hc]
    simp
  · intro ws s buf hs
    rw [pdb_write_total E ws s buf hw (reachablePdb_inv hw hs).1 htot]
    simp
  · intro ws s buf hs
    obtain ⟨h1, h2, h3⟩ := reachableRec_inv hw hs
    rw [rec_write_total E ws s buf hw h1 h2 htot]
    simp

/-- C10: writing an empty chunk from any reachable facade state is a no-op:
the call succeeds, consumes `0` bytes, decodes nothing, and leaves the state
(leftover buffer and window, hence `len()`, `mean()`, `std_dev()`)
unchanged; this holds for both facade builds. -/
theorem empty_write_noop {T : Type} (E : Converter T) (ws : Nat) (hw : 0 < E.width) :
    (∀ s : RollingStatsPdb T, ReachablePdb E ws s →
      s.write E ws [] = some (s, 0, [])) ∧
    (∀ s : RollingStatsRec T, ReachableRec E ws s →
      s.write E ws [] = some (s, Except.ok 0, [])) := by
  constructor
  · intro s hs
    obtain ⟨hinv, hwin⟩ := reachablePdb_inv hw hs
    obtain ⟨⟨l0⟩, win⟩ := s
    simp only at hinv hwin
    simp only [RollingStatsPdb.write, PartialDataBuffer.consume]
    rw [if_pos (by simpa using hinv)]
    dsimp only
    rw [chunksExact_small (by simpa using hw)]
    simp only [List.mapM_nil, Option.toList_none, List.nil_append, List.append_nil,
      popExcess_eq_lastN, lastN_of_length_le hwin, List.length_nil]
  · intro s hs
    obtain ⟨hinv, hrb, hwin⟩ := reachableRec_inv hw hs
    obtain ⟨⟨l0, rb⟩, win⟩ := s
    simp only at hinv hrb hwin
    subst hrb
    simp only [RollingStatsRec.write, Reconstructor.write]
    rw [if_pos (by simpa using hinv)]
    dsimp only [Reconstructor.flush]
    simp only [List.append_nil, popExcess_eq_lastN, lastN_of_length_le hwin, List.length_nil]

theorem decodeLoop_fst_eq (E : Converter T) :
    ∀ gs : List (List Nat), (decodeLoop E gs).1 = okValuesUpto E gs
  | [] => rfl
  | g :: gs => by
    rw [decodeLoop, okValuesUpto]
    cases hfr : E.from_raw g with
    | error e =>
      simp [hfr, Except.toOption, decodeOks]
    | ok v =>
      simp only [List.takeWhile_cons, hfr, toOption_ok, Option.isSome_some, if_true]
      rw [decodeOks_cons_ok E hfr]
      rw [decodeLoop_fst_eq E gs, okValuesUpto]

theorem decodeLoop_err_iff (E : Converter T) :
    ∀ gs : List (List Nat),
      (∃ e, (decodeLoop E gs).2 = some e)
        ↔ ∃ g ∈ gs, ∃ er, E.from_raw g = Except.error er
  | [] => by simp [decodeLoop]
  | g :: gs => by
    rw [decodeLoop]
    cases hfr : E.from_raw g with
    | error e =>
      dsimp only
      constructor
      · intro _
        exact ⟨g, List.mem_cons_self g gs, e, hfr⟩
      · intro _
        exact ⟨e, rfl⟩
    | ok v =>
      dsimp only
      rw [decodeLoop_err_iff E gs]
      constructor
      · rintro ⟨g', hg', er, her⟩
        exact ⟨g', List.mem_cons_of_mem _ hg', er, her⟩
      · rintro ⟨g', hg', er, her⟩
        rcases List.mem_cons.1 hg' with rfl | hmem
        · rw [hfr] at her
          exact absurd her (by simp)
        · exact ⟨g', hmem, er, her⟩

/-- C7: error semantics of `write`: a successful result is exactly the input
chunk's length; an error is returned precisely when some byte-complete group
of this call fails to decode; on error the previously retained values and
the values decoded earlier in the same call remain in the parsed buffer, the
leftover buffer is left consistent (shorter than the width), and the facade
propagates the error while retaining those values in the window. -/
theorem write_error_semantics {T : Type} (E : Converter T) (r r' : Reconstructor T)
    (buf : List Nat) (res : Except IoError Nat) (hw : 0 < E.width)
    (hinv : r.intermediate_buffer.length < E.width)
    (h : r.write E buf = some (r', res)) :
    (∀ n, res = Except.ok n → n = buf.length) ∧
    ((∃ e, res = Except.error e) ↔
      ∃ g ∈ chunksExact E.width (buf.drop (writeOffset E.width r.intermediate_buffer)),
        ∃ er, E.from_raw g = Except.error er) ∧
    (∀ e, res = Except.error e →
      ∃ vs1, step1Vals E r buf = some vs1 ∧
        r'.buffer = r.buffer ++ vs1 ++ okValuesUpto E
          (chunksExact E.width (buf.drop (writeOffset E.width r.intermediate_buffer))) ∧
        r'.intermediate_buffer.length < E.width) ∧
    (∀ (ws : Nat) (win : List T),
      RollingStatsRec.write E ws ⟨r, win⟩ buf
        = some (⟨⟨r'.intermediate_buffer, []⟩, popExcess ws (win ++ r'.buffer)⟩,
            res, r'.buffer)) := by
  have hfacade : ∀ (ws : Nat) (win : List T),
      RollingStatsRec.write E ws ⟨r, win⟩ buf
        = some (⟨⟨r'.intermediate_buffer, []⟩, popExcess ws (win ++ r'.buffer)⟩,
            res, r'.buffer) := by
    intro ws win
    simp only [RollingStatsRec.write]
    rw [h]
    dsimp only [Reconstructor.flush]
  refine ⟨?_, ?_, ?_, hfacade⟩ <;> rw [recon_write_eq E r buf hw hinv] at h
  · intro n hn
    split at h
    · next hsmall =>
      simp only [Option.some.injEq, Prod.mk.injEq] at h
      exact (Except.ok.inj (h.2.trans hn)).symm
    · next hsmall =>
      cases hs1 : step1Vals E r buf with
      | none => rw [hs1] at h; exact absurd h (by simp)
      | some vs1 =>
        rw [hs1] at h
        dsimp only at h
        split at h
        · next e' heq =>
          simp only [Option.some.injEq, Prod.mk.injEq] at h
          rw [← h.2] at hn
          exact absurd hn (by simp)
        · next heq =>
          simp only [Option.some.injEq, Prod.mk.injEq] at h
          rw [← h.2] at hn
          exact (Except.ok.inj hn).symm
  · split at h
    · next hsmall =>
      simp only [Option.some.injEq, Prod.mk.injEq] at h
      constructor
      · rintro ⟨e, he⟩
        rw [← h.2] at he
        exact absurd he (by simp)
      · rintro ⟨g, hg, -⟩
        have hdrop : (buf.drop (writeOffset E.width r.intermediate_buffer)).length
            < E.width := by
          rw [List.length_drop]
          omega
        rw [chunksExact_small hdrop] at hg
        exact absurd hg (List.not_mem_nil g)
    · next hsmall =>
      cases hs1 : step1Vals E r buf with
      | none => rw [hs1] at h; exact absurd h (by simp)
      | some vs1 =>
        rw [hs1] at h
        dsimp only at h
        split at h
        · next e' heq =>
          simp only [Option.some.injEq, Prod.mk.injEq] at h
          constructor
          · intro _
            exact (decodeLoop_err_iff E _).1 ⟨e', heq⟩
          · intro _
            exact ⟨IoError.invalidData, h.2.symm⟩
        · next heq =>
          simp only [Option.some.injEq, Prod.mk.injEq] at h
          constructor
          · rintro ⟨e, he⟩
            rw [← h.2] at he
            exact absurd he (by simp)
          · intro hex
            obtain ⟨e, he⟩ := (decodeLoop_err_iff E _).2 hex
            rw [heq] at he
            exact absurd he (by simp)
  · intro e he
    split at h
    · next hsmall =>
      simp only [Option.some.injEq, Prod.mk.injEq] at h
      rw [← h.2] at he
      exact absurd he (by simp)
    · next hsmall =>
      cases hs1 : step1Vals E r buf with
      | none => rw [hs1] at h; exact absurd h (by simp)
      | some vs1 =>
        rw [hs1] at h
        dsimp only at h
        split at h
        · next e' heq =>
          simp only [Option.some.injEq, Prod.mk.injEq] at h
          refine ⟨vs1, rfl, ?_, ?_⟩
          · rw [← h.1, decodeLoop_fst_eq E _]
          · rw [← h.1]
            exact length_chunksRemainder_lt hw _
        · next heq =>
          simp only [Option.some.injEq, Prod.mk.injEq] at h
          rw [← h.2] at he
          exact absurd he (by simp)

/-- Witness for C1 at the little-endian scheme, window 3, and a concrete
mid-value chunk split. -/
theorem chunking_invariance_witness :
    0 < LittleEndian.width ∧ TotalOnWidth LittleEndian ∧
    (∃ s₁ counts₁ vals₁ s₂ counts₂ vals₂,
      writeAllPdb LittleEndian 3 ([[1, 0, 0], [0, 2, 0, 0, 0]] : List (List Nat))
          RollingStatsPdb.new = some (s₁, counts₁, vals₁) ∧
      writeAllPdb LittleEndian 3 [([[1, 0, 0], [0, 2, 0, 0, 0]] : List (List Nat)).flatten]
          RollingStatsPdb.new = some (s₂, counts₂, vals₂) ∧
      vals₁ = vals₂ ∧ s₁ = s₂ ∧
      counts₁.sum = (([[1, 0, 0], [0, 2, 0, 0, 0]] : List (List Nat)).map List.length).sum ∧
      counts₂.sum = ([[1, 0, 0], [0, 2, 0, 0, 0]] : List (List Nat)).flatten.length) :=
  ⟨by decide, LittleEndian_total,
    chunking_invariance LittleEndian 3 (by decide) LittleEndian_total
      [[1, 0, 0], [0, 2, 0, 0, 0]]⟩

/-- Witness for C2 at the little-endian scheme, window 2, three decoded
values in one chunk. -/
theorem window_bound_recency_witness :
    0 < LittleEndian.width ∧ TotalOnWidth LittleEndian ∧
    (∃ s counts vals,
      writeAllPdb LittleEndian 2 ([[1, 0, 0, 0, 2, 0, 0, 0, 3, 0, 0, 0]] : List (List Nat))
          RollingStatsPdb.new = some (s, counts, vals) ∧
      s.len ≤ 2 ∧
      s.buffer = lastN 2 vals ∧
      mean 2 s.buffer = mean 2 (lastN 2 vals) ∧
      std_dev 2 s.buffer = std_dev 2 (lastN 2 vals)) :=
  ⟨by decide, LittleEndian_total,
    window_bound_recency LittleEndian 2 (by decide) LittleEndian_total
      [[1, 0, 0, 0, 2, 0, 0, 0, 3, 0, 0, 0]]⟩

/-- Witness for C3 at the little-endian scheme and the freshly constructed
states. -/
theorem leftover_invariant_witness :
    (Reconstructor.new : Reconstructor Int).intermediate_buffer.length
      < LittleEndian.width :=
  (leftover_invariant LittleEndian (by decide)).1 Reconstructor.new ReachableRecon.init

/-- Witness for C6 at the little-endian scheme, window 3, and a concrete
chunk split crossing a value boundary. -/
theorem buffering_strategies_equivalent_witness :
    0 < LittleEndian.width ∧ TotalOnWidth LittleEndian ∧
    (∃ sR ressR valsR sP counts valsP,
      writeAllRec LittleEndian 3 ([[1, 0], [0, 0, 2, 0, 0, 0]] : List (List Nat))
          RollingStatsRec.new = some (sR, ressR, valsR) ∧
      writeAllPdb LittleEndian 3 ([[1, 0], [0, 0, 2, 0, 0, 0]] : List (List Nat))
          RollingStatsPdb.new = some (sP, counts, valsP) ∧
      sR.buffer = sP.buffer ∧ sR.len = sP.len ∧ valsR = valsP ∧
      ressR = counts.map Except.ok) :=
  ⟨by decide, LittleEndian_total,
    buffering_strategies_equivalent LittleEndian 3 (by decide) LittleEndian_total
      [[1, 0], [0, 0, 2, 0, 0, 0]]⟩

/-- Witness for C7 at the little-endian scheme on a five-byte chunk from a
fresh reconstructor (the successful call returns the chunk length). -/
theorem write_error_semantics_witness :
    0 < LittleEndian.width ∧
    (Reconstructor.new : Reconstructor Int).intermediate_buffer.length
      < LittleEndian.width ∧
    (5 : Nat) = ([1, 2, 3, 4, 5] : List Nat).length :=
  ⟨by decide, by decide,
    (write_error_semantics LittleEndian Reconstructor.new _ [1, 2, 3, 4, 5]
      (Except.ok ([1, 2, 3, 4, 5] : List Nat).length) (by decide) (by decide)
      (recon_write_total LittleEndian Reconstructor.new [1, 2, 3, 4, 5] (by decide)
        (by decide) LittleEndian_total)).1 5 rfl⟩

/-- Witness for C8 at the little-endian scheme from a fresh reconstructor on
a partial chunk. -/
theorem decode_unwrap_safe_witness :
    (Reconstructor.new : Reconstructor Int).write LittleEndian [0, 1] ≠ none :=
  ((decode_unwrap_safe LittleEndian (Or.inl rfl)).1 Reconstructor.new [0, 1]
    ReachableRecon.init).1

/-- Witness for C10 at the little-endian scheme, window 3, from a fresh
default-build facade. -/
theorem empty_write_noop_witness :
    (RollingStatsPdb.new : RollingStatsPdb Int).write LittleEndian 3 []
      = some (RollingStatsPdb.new, 0, []) :=
  (empty_write_noop LittleEndian 3 (by decide)).1 RollingStatsPdb.new ReachablePdb.init

end RollingStatsModel